import Mathlib

/-!
Verification development for the repository file src/create_phase9.py.

The script locates the section marker in a document, runs the regular
expression pattern over the tail of the document, and submits every match
as an issue-creation request, printing one status line per entry.

The embedding below works over List Char. It models, faithfully to the
source:

* extraction: content.find of the marker literal and slicing to the end of
  the document (strFind, extract);
* the compiled pattern applied with findall and the DOTALL flag
  (takeDigits, titleLoop, bodyLoop, matchBody, matchAt, scanF, scan); the
  pattern is: four hash signs and a space, a group of one or more digits,
  a dot and a space, a lazy nonempty group, a line break, a lazy nonempty
  group, then a zero-width alternative of either a line break followed by
  four hash signs, a space and a digit, or the end-of-input anchor (which,
  in the source language, also matches just before a line break that ends
  the input);
* the submission loop of main together with create_issue, where the
  network is an external collaborator modelled as an oracle from the call
  index to either an assigned issue number or an error description
  (create_issue, submitLoop, runMain).

Notes on the embedding of the source language primitives: the digit class
is modelled as the ten ASCII digits and the strip method as trimming the
six ASCII whitespace characters; none of the claims depend on characters
outside that range. The backtracking of the greedy digit group never
succeeds after shrinking (a digit is never a dot), so the model takes the
maximal digit run and then requires the dot and the space.
-/

/-- Convenience conversion from a string literal to the character list it
denotes. -/
def chars (s : String) : List Char :=
  s.toList

/-- One parsed entry: the three capture groups of the pattern, in order. -/
structure Entry where
  number : List Char
  title : List Char
  body : List Char
deriving DecidableEq

/-- The first alternative of the zero-width assertion that ends a body: a
line break followed by four hash signs, a space and at least one digit. -/
def nextHeadingLA (s : List Char) : Bool :=
  match s with
  | '\n' :: '#' :: '#' :: '#' :: '#' :: ' ' :: c :: _ => c.isDigit
  | _ => false

/-- The second alternative of the zero-width assertion: the end-of-input
anchor, which holds at the end of the input and also just before a line
break that is the last character of the input. -/
def dollarOk (s : List Char) : Bool :=
  match s with
  | [] => true
  | [c] => c == '\n'
  | _ => false

/-- The whole zero-width assertion that ends a body group. -/
def lookB (s : List Char) : Bool :=
  nextHeadingLA s || dollarOk s

/-- The lazy body group after its first mandatory character: extend one
character at a time, stopping at the first position where the zero-width
assertion holds.  The accumulator holds the consumed characters in
reverse. -/
def bodyLoop : List Char → List Char → Option (List Char × List Char)
  | acc, r =>
    if lookB r then some (acc.reverse, r)
    else
      match r with
      | [] => none
      | c :: rest => bodyLoop (c :: acc) rest

/-- The lazy body group: at least one character, then extension until the
zero-width assertion holds. -/
def matchBody : List Char → Option (List Char × List Char)
  | [] => none
  | c :: r => bodyLoop [c] r

/-- The lazy title group after its first mandatory character, including
the backtracking the engine performs when the remainder of the pattern
fails: at each line break, first try to treat it as the separator before
the body; if the body cannot match, absorb the line break into the title
and continue.  The accumulator holds the consumed characters in
reverse. -/
def titleLoop : List Char → List Char → Option (List Char × List Char × List Char)
  | _, [] => none
  | acc, c :: rest =>
    if c = '\n' then
      match matchBody rest with
      | some (b, rem) => some (acc.reverse, b, rem)
      | none => titleLoop (c :: acc) rest
    else titleLoop (c :: acc) rest

/-- Maximal run of digits at the front of the list, together with the
remainder. -/
def takeDigits : List Char → List Char × List Char
  | [] => ([], [])
  | c :: r =>
    if c.isDigit then
      let p := takeDigits r
      (c :: p.1, p.2)
    else ([], c :: r)

/-- One anchored match attempt of the whole pattern at the head of the
list.  On success it returns the three captures and the position where the
engine resumes scanning, which is where the zero-width assertion held. -/
def matchAt : List Char → Option (Entry × List Char)
  | '#' :: '#' :: '#' :: '#' :: ' ' :: r =>
    match takeDigits r with
    | ([], _) => none
    | (d :: ds, '.' :: ' ' :: c :: r2) =>
      match titleLoop [c] r2 with
      | some (t, b, rem) => some (⟨d :: ds, t, b⟩, rem)
      | none => none
    | _ => none
  | _ => none

/-- Fueled scanning loop of findall: try a match at every position in
order; after a successful match resume at its end.  The fuel only serves
termination; scan supplies enough of it. -/
def scanF : Nat → List Char → List Entry
  | 0, _ => []
  | _ + 1, [] => []
  | f + 1, c :: r =>
    match matchAt (c :: r) with
    | some (e, rest) => e :: scanF f rest
    | none => scanF f r

/-- The findall call of main: the ordered list of all matches of the
pattern over the section text. -/
def scan (s : List Char) : List Entry :=
  scanF s.length s

/-- First index at which the needle occurs as a contiguous sublist of the
haystack, the model of the find method of the source language. -/
def strFind : List Char → List Char → Option Nat
  | [], needle => if needle.isPrefixOf [] then some 0 else none
  | c :: t, needle =>
    if needle.isPrefixOf (c :: t) then some 0
    else Option.map (fun n => n + 1) (strFind t needle)

/-- The section marker literal of main. -/
def marker : List Char :=
  chars "### Phase 9"

/-- The extraction step of main: find the marker and keep everything from
its first occurrence to the end of the document; signal nothing found by
returning none. -/
def extract (content : List Char) : Option (List Char) :=
  match strFind content marker with
  | some i => some (content.drop i)
  | none => none

/-- The marker occurs at index i of the content. -/
def occursAt (content : List Char) (i : Nat) : Prop :=
  marker.isPrefixOf (content.drop i) = true

instance (content : List Char) (i : Nat) : Decidable (occursAt content i) := by
  unfold occursAt
  infer_instance

/-- The whitespace characters trimmed by the strip method (ASCII part). -/
def isSpaceChar (c : Char) : Bool :=
  (c == ' ') || (c == '\t') || (c == '\n') || (c == '\r') || (c == '\x0b') || (c == '\x0c')

/-- The strip method: remove leading and trailing whitespace. -/
def stripChars (s : List Char) : List Char :=
  ((s.dropWhile isSpaceChar).reverse.dropWhile isSpaceChar).reverse

/-- The composed title of main: the raw number, a dot and a space, then
the stripped title. -/
def fullTitle (e : Entry) : List Char :=
  e.number ++ '.' :: ' ' :: stripChars e.title

/-- The cleaned body of main: the stripped body capture. -/
def cleanBody (e : Entry) : List Char :=
  stripChars e.body

/-- The fixed classification label attached to every created ticket. -/
def newForWave : List Char :=
  chars "new_for_wave"

/-- The request payload built by create_issue: the three fields of the
serialized object. -/
structure Payload where
  title : List Char
  body : List Char
  labels : List (List Char)
deriving DecidableEq

/-- Observable events of a run: the diagnostic for a missing section, the
discovered-count line, one submission attempt per network call, and the
per-entry outcome lines. -/
inductive Event
  | printNotFound
  | printCount (n : Nat)
  | submit (p : Payload)
  | printCreated (id : Nat) (title : List Char)
  | printFailed (title : List Char) (err : List Char)
deriving DecidableEq

/-- create_issue: build the payload, perform one request, and either
print the created line and return the assigned number, or catch the
failure, print the failed line with the title and the reason, and return
none.  The outcome of the single network call is passed in, since the
tracker is an external collaborator. -/
def create_issue (res : Except (List Char) Nat) (title body : List Char) :
    List Event × Option Nat :=
  match res with
  | Except.ok n => ([Event.submit ⟨title, body, [newForWave]⟩, Event.printCreated n title], some n)
  | Except.error err => ([Event.submit ⟨title, body, [newForWave]⟩, Event.printFailed title err], none)

/-- The submission loop of main: one create_issue call per entry, in
order; the oracle maps the index of the call to its network outcome. -/
def submitLoop (net : Nat → Except (List Char) Nat) : Nat → List Entry → List Event
  | _, [] => []
  | k, e :: es => (create_issue (net k) (fullTitle e) (cleanBody e)).1 ++ submitLoop net (k + 1) es

/-- main: extract the section; if the marker is absent print the
diagnostic and stop; otherwise parse, print the discovered count, and run
the submission loop. -/
def runMain (content : List Char) (net : Nat → Except (List Char) Nat) : List Event :=
  match extract content with
  | none => [Event.printNotFound]
  | some sec => Event.printCount (scan sec).length :: submitLoop net 0 (scan sec)

/-- The submission attempts of a trace, in order. -/
def submitsOf (evs : List Event) : List Payload :=
  evs.filterMap fun ev =>
    match ev with
    | Event.submit p => some p
    | _ => none

/-- The payload main builds for one entry. -/
def payloadOf (e : Entry) : Payload :=
  ⟨fullTitle e, cleanBody e, [newForWave]⟩

/-- Events that belong to the per-entry submission phase. -/
def submissionEvent : Event → Prop
  | Event.submit _ => True
  | Event.printCreated _ _ => True
  | Event.printFailed _ _ => True
  | _ => False

/-- The text a heading with entry e contributes to a section. -/
def entryText (e : Entry) : List Char :=
  '#' :: '#' :: '#' :: '#' :: ' ' :: (e.number ++ '.' :: ' ' :: (e.title ++ '\n' :: e.body))

/-- A section consisting of consecutive headings with their bodies, each
body separated from the next heading line by the line break that ends its
last line. -/
def sectionText : List Entry → List Char
  | [] => []
  | [e] => entryText e
  | e :: es => entryText e ++ '\n' :: sectionText es

/-- No suffix of the list begins like the body-ending assertion; bodies
with this property never hide a heading start. -/
def noPseudo (b : List Char) : Bool :=
  (List.range (b.length + 1)).all fun i => !(nextHeadingLA (b.drop i))

/-- Wellformedness of a generated entry: a nonempty all-digit number, a
nonempty single-line title, and a nonempty body that contains no
body-ending assertion match and does not end with a line break. -/
def entryGood (e : Entry) : Prop :=
  e.number ≠ [] ∧ e.number.all Char.isDigit = true ∧
  e.title ≠ [] ∧ '\n' ∉ e.title ∧
  e.body ≠ [] ∧ noPseudo e.body = true ∧ e.body.getLast? ≠ some '\n'

instance (e : Entry) : Decidable (entryGood e) := by
  unfold entryGood
  infer_instance

/-- A recognized heading starts here: four hash signs, a space, at least
one digit, then a dot and a space. -/
def headingAt (s : List Char) : Bool :=
  match s with
  | '#' :: '#' :: '#' :: '#' :: ' ' :: r =>
    match takeDigits r with
    | (_ :: _, '.' :: ' ' :: _) => true
    | _ => false
  | _ => false

/-- No position of the section starts a recognized heading. -/
def headingFree (s : List Char) : Bool :=
  (List.range (s.length + 1)).all fun i => !(headingAt (s.drop i))

/-! ## Length bounds of the matching primitives -/

theorem bodyLoop_rest_le (r : List Char) : ∀ acc b rem,
    bodyLoop acc r = some (b, rem) → rem.length ≤ r.length := by
  induction r with
  | nil =>
    intro acc b rem h
    unfold bodyLoop at h
    split at h
    · simp_all
    · simp at h
  | cons c rest ih =>
    intro acc b rem h
    unfold bodyLoop at h
    split at h
    · obtain ⟨h1, h2⟩ := Prod.mk.injEq .. ▸ (Option.some.injEq .. ▸ h)
      subst h2
      exact Nat.le_refl _
    · have := ih (c :: acc) b rem h
      exact Nat.le_succ_of_le this

theorem matchBody_rest_lt (r : List Char) (b rem : List Char)
    (h : matchBody r = some (b, rem)) : rem.length < r.length := by
  cases r with
  | nil => simp [matchBody] at h
  | cons c rest =>
    have := bodyLoop_rest_le rest [c] b rem h
    simpa [Nat.lt_succ_iff] using this

theorem titleLoop_rest_lt (r : List Char) : ∀ acc t b rem,
    titleLoop acc r = some (t, b, rem) → rem.length < r.length := by
  induction r with
  | nil => intro acc t b rem h; simp [titleLoop] at h
  | cons c rest ih =>
    intro acc t b rem h
    unfold titleLoop at h
    split at h
    · split at h
      · rename_i b2 rem2 hm
        simp only [Option.some.injEq, Prod.mk.injEq] at h
        obtain ⟨h1, h2, h3⟩ := h
        subst h3
        have := matchBody_rest_lt rest b2 rem2 hm
        simp only [List.length_cons]
        omega
      · have := ih (c :: acc) t b rem h
        simp only [List.length_cons]
        omega
    · have := ih (c :: acc) t b rem h
      simp only [List.length_cons]
      omega

theorem takeDigits_snd_le (r : List Char) : (takeDigits r).2.length ≤ r.length := by
  induction r with
  | nil => simp [takeDigits]
  | cons c rest ih =>
    unfold takeDigits
    split
    · simpa using Nat.le_succ_of_le ih
    · simp

theorem matchAt_rest_lt (s : List Char) (e : Entry) (rest : List Char)
    (h : matchAt s = some (e, rest)) : rest.length < s.length := by
  unfold matchAt at h
  split at h
  · rename_i r
    split at h
    · simp at h
    · rename_i d ds c r2 heq
      split at h
      · rename_i t b rem htl
        obtain ⟨h1, h2⟩ := Prod.mk.injEq .. ▸ (Option.some.injEq .. ▸ h)
        subst h2
        have hlt := titleLoop_rest_lt r2 [c] t b rem htl
        have hsnd : (takeDigits r).2.length ≤ r.length := takeDigits_snd_le r
        rw [heq] at hsnd
        simp at hsnd
        simp only [List.length_cons]
        omega
      · simp at h
    · simp at h
  · simp at h

/-! ## Fuel congruence and the unfolding equations of scan -/

theorem scanF_congr (f1 : Nat) : ∀ f2 s, s.length ≤ f1 → s.length ≤ f2 →
    scanF f1 s = scanF f2 s := by
  induction f1 with
  | zero =>
    intro f2 s h1 h2
    have : s = [] := List.length_eq_zero.mp (Nat.le_zero.mp h1)
    subst this
    cases f2 <;> rfl
  | succ f ih =>
    intro f2 s h1 h2
    cases s with
    | nil => cases f2 <;> rfl
    | cons c r =>
      cases f2 with
      | zero => simp at h2
      | succ g =>
        show scanF (f + 1) (c :: r) = scanF (g + 1) (c :: r)
        unfold scanF
        cases hm : matchAt (c :: r) with
        | none =>
          simp only
          exact ih g r (by simpa using h1) (by simpa using h2)
        | some pr =>
          obtain ⟨e, rest⟩ := pr
          simp only
          have hlt := matchAt_rest_lt (c :: r) e rest hm
          simp only [List.length_cons] at hlt h1 h2
          rw [ih g rest (by omega) (by omega)]

theorem scan_nil : scan [] = [] := rfl

theorem scan_of_matchAt (s : List Char) (e : Entry) (rest : List Char)
    (h : matchAt s = some (e, rest)) : scan s = e :: scan rest := by
  cases s with
  | nil => simp [matchAt] at h
  | cons c r =>
    have hlt := matchAt_rest_lt (c :: r) e rest h
    simp only [List.length_cons] at hlt
    show scanF (c :: r).length (c :: r) = e :: scan rest
    simp only [List.length_cons, scanF, h]
    rw [scanF_congr r.length rest.length rest (by omega) (Nat.le_refl _)]
    rfl

theorem scan_of_none (c : Char) (r : List Char)
    (h : matchAt (c :: r) = none) : scan (c :: r) = scan r := by
  show scanF (c :: r).length (c :: r) = scan r
  simp only [List.length_cons, scanF, h]
  rfl


/-! ## The body-ending assertion -/

theorem nhla_cons (c : Char) (t : List Char) :
    nextHeadingLA ('\n' :: '#' :: '#' :: '#' :: '#' :: ' ' :: c :: t) = c.isDigit := rfl

theorem nhla_iff (s : List Char) : nextHeadingLA s = true ↔
    ∃ c t, s = '\n' :: '#' :: '#' :: '#' :: '#' :: ' ' :: c :: t ∧ c.isDigit = true := by
  constructor
  · intro h
    unfold nextHeadingLA at h
    split at h
    · rename_i c t
      exact ⟨c, t, rfl, h⟩
    · simp at h
  · rintro ⟨c, t, rfl, hc⟩
    rw [nhla_cons]
    exact hc

theorem nhla_false_append (v z : List Char) (hv : v ≠ [])
    (hnv : nextHeadingLA v = false) : nextHeadingLA (v ++ '\n' :: z) = false := by
  by_contra hcon
  have htrue : nextHeadingLA (v ++ '\n' :: z) = true := by
    cases hb : nextHeadingLA (v ++ '\n' :: z)
    · exact absurd hb hcon
    · rfl
  obtain ⟨c, t, heq, hc⟩ := (nhla_iff _).mp htrue
  rcases v with _ | ⟨a1, v⟩
  · exact hv rfl
  rcases v with _ | ⟨a2, v⟩
  · simp at heq
  rcases v with _ | ⟨a3, v⟩
  · simp at heq
  rcases v with _ | ⟨a4, v⟩
  · simp at heq
  rcases v with _ | ⟨a5, v⟩
  · simp at heq
  rcases v with _ | ⟨a6, v⟩
  · simp at heq
  rcases v with _ | ⟨a7, v⟩
  · simp only [List.cons_append, List.nil_append, List.cons.injEq] at heq
    obtain ⟨e1, e2, e3, e4, e5, e6, e7, e8⟩ := heq
    subst e7
    simp at hc
  · simp only [List.cons_append, List.cons.injEq] at heq
    obtain ⟨e1, e2, e3, e4, e5, e6, e7, e8⟩ := heq
    subst e1; subst e2; subst e3; subst e4; subst e5; subst e6; subst e7
    rw [nhla_cons] at hnv
    rw [hnv] at hc
    simp at hc

theorem dollarOk_two (a b : Char) (t : List Char) : dollarOk (a :: b :: t) = false := rfl

theorem noPseudo_spec (b v : List Char) (h : noPseudo b = true) (hv : v <:+ b) :
    nextHeadingLA v = false := by
  obtain ⟨u, hu⟩ := hv
  subst hu
  have hmem : u.length ∈ List.range ((u ++ v).length + 1) := by
    simp [List.mem_range, List.length_append]
    omega
  have := List.all_eq_true.mp h u.length hmem
  simp only [List.drop_left] at this
  simpa using this

/-! ## Running the lazy groups over wellformed text -/

theorem lookB_nil : lookB [] = true := rfl

theorem lookB_false_of (b v rest : List Char) (hv : v <:+ b) (hvne : v ≠ [])
    (hnp : noPseudo b = true) (hlast : b.getLast? ≠ some '\n')
    (hrest : rest = [] ∨ ∃ z, rest = '\n' :: z) : lookB (v ++ rest) = false := by
  have hnv : nextHeadingLA v = false := noPseudo_spec b v hnp hv
  rcases hrest with rfl | ⟨z, rfl⟩
  · rw [List.append_nil]
    unfold lookB
    rw [hnv]
    simp only [Bool.false_or]
    rcases v with _ | ⟨a, v2⟩
    · exact absurd rfl hvne
    rcases v2 with _ | ⟨a2, v3⟩
    · have hne : a ≠ '\n' := by
        intro hcon
        subst hcon
        obtain ⟨u, hu⟩ := hv
        rw [← hu] at hlast
        rw [List.getLast?_concat] at hlast
        exact hlast rfl
      show (a == '\n') = false
      simpa using hne
    · rw [dollarOk_two]
  · unfold lookB
    rw [nhla_false_append v z hvne hnv]
    simp only [Bool.false_or]
    rcases v with _ | ⟨a, v2⟩
    · exact absurd rfl hvne
    rcases v2 with _ | ⟨a2, v3⟩
    · simp only [List.cons_append, List.nil_append]
      rw [dollarOk_two]
    · simp only [List.cons_append]
      rw [dollarOk_two]

theorem bodyLoop_run (y : List Char) : ∀ acc rest,
    (∀ v, v <:+ y → v ≠ [] → lookB (v ++ rest) = false) →
    lookB rest = true →
    bodyLoop acc (y ++ rest) = some (acc.reverse ++ y, rest) := by
  induction y with
  | nil =>
    intro acc rest hmid hend
    unfold bodyLoop
    rw [List.nil_append, hend]
    simp
  | cons c y2 ih =>
    intro acc rest hmid hend
    have hself : lookB (c :: (y2 ++ rest)) = false := by
      have h0 := hmid (c :: y2) (List.suffix_refl _) (by simp)
      rwa [List.cons_append] at h0
    have hih := ih (c :: acc) rest
      (fun v hv hvne => hmid v (hv.trans (List.suffix_cons c y2)) hvne) hend
    rw [List.cons_append]
    unfold bodyLoop
    rw [hself]
    simp only [Bool.false_eq_true, if_false]
    rw [hih]
    simp

theorem matchBody_run (b rest : List Char) (hb : b ≠ [])
    (hmid : ∀ v, v <:+ b → v ≠ [] → lookB (v ++ rest) = false)
    (hend : lookB rest = true) :
    matchBody (b ++ rest) = some (b, rest) := by
  rcases b with _ | ⟨c, b2⟩
  · exact absurd rfl hb
  rw [List.cons_append]
  show bodyLoop [c] (b2 ++ rest) = some (c :: b2, rest)
  have := bodyLoop_run b2 [c] rest
    (fun v hv hvne => hmid v (hv.trans (List.suffix_cons c b2)) hvne) hend
  rw [this]
  simp

theorem titleLoop_run (t : List Char) : ∀ acc rest b rem, '\n' ∉ t →
    matchBody rest = some (b, rem) →
    titleLoop acc (t ++ '\n' :: rest) = some (acc.reverse ++ t, b, rem) := by
  induction t with
  | nil =>
    intro acc rest b rem ht hm
    rw [List.nil_append]
    unfold titleLoop
    rw [if_pos rfl, hm]
    simp
  | cons c t2 ih =>
    intro acc rest b rem ht hm
    have hc : c ≠ '\n' := fun hcon => ht (hcon ▸ List.mem_cons_self c t2)
    rw [List.cons_append]
    unfold titleLoop
    rw [if_neg hc]
    have := ih (c :: acc) rest b rem (fun hmem => ht (List.mem_cons_of_mem c hmem)) hm
    rw [this]
    simp

theorem takeDigits_app (ds : List Char) (r : List Char)
    (h : ∀ c ∈ ds, c.isDigit = true) :
    takeDigits (ds ++ '.' :: r) = (ds, '.' :: r) := by
  induction ds with
  | nil =>
    rw [List.nil_append]
    unfold takeDigits
    simp
  | cons c ds2 ih =>
    rw [List.cons_append]
    unfold takeDigits
    rw [if_pos (h c (List.mem_cons_self c ds2))]
    rw [ih (fun d hd => h d (List.mem_cons_of_mem c hd))]

/-! ## A full match over one generated entry -/

theorem matchAt_shape (d c : Char) (ds t2 body rest : List Char)
    (hd : (d :: ds).all Char.isDigit = true)
    (htl : titleLoop [c] (t2 ++ '\n' :: (body ++ rest)) = some (c :: t2, body, rest)) :
    matchAt ('#' :: '#' :: '#' :: '#' :: ' ' ::
        (d :: ds ++ '.' :: ' ' :: (c :: t2 ++ '\n' :: (body ++ rest))))
      = some (⟨d :: ds, c :: t2, body⟩, rest) := by
  have htk := takeDigits_app (d :: ds) (' ' :: (c :: t2 ++ '\n' :: (body ++ rest)))
      (List.all_eq_true.mp hd)
  simp only [List.cons_append] at htk
  simp only [matchAt, List.cons_append, htk, htl]

theorem matchAt_entry (e : Entry) (rest : List Char) (hg : entryGood e)
    (hrest : rest = [] ∨ ∃ z, rest = '\n' :: z ∧ nextHeadingLA ('\n' :: z) = true) :
    matchAt (entryText e ++ rest) = some (e, rest) := by
  obtain ⟨num, title, body⟩ := e
  obtain ⟨hnum, hdig, htne, htnl, hbne, hnp, hlast⟩ := hg
  have hend : lookB rest = true := by
    rcases hrest with rfl | ⟨z, rfl, hz⟩
    · rfl
    · unfold lookB
      rw [hz]
      rfl
  have hrest2 : rest = [] ∨ ∃ z, rest = '\n' :: z := by
    rcases hrest with rfl | ⟨z, rfl, hz⟩
    · exact Or.inl rfl
    · exact Or.inr ⟨z, rfl⟩
  have hmb : matchBody (body ++ rest) = some (body, rest) :=
    matchBody_run body rest hbne
      (fun v hv hvne => lookB_false_of body v rest hv hvne hnp hlast hrest2) hend
  obtain ⟨d, ds, rfl⟩ : ∃ d ds, num = d :: ds := by
    rcases num with _ | ⟨d, ds⟩
    · exact absurd rfl hnum
    · exact ⟨d, ds, rfl⟩
  obtain ⟨c, t2, rfl⟩ : ∃ c t2, title = c :: t2 := by
    rcases title with _ | ⟨c, t2⟩
    · exact absurd rfl htne
    · exact ⟨c, t2, rfl⟩
  have htl : titleLoop [c] (t2 ++ '\n' :: (body ++ rest)) = some (c :: t2, body, rest) := by
    have h0 := titleLoop_run t2 [c] (body ++ rest) body rest
      (fun hmem => htnl (List.mem_cons_of_mem c hmem)) hmb
    simpa using h0
  have hform : entryText ⟨d :: ds, c :: t2, body⟩ ++ rest
      = '#' :: '#' :: '#' :: '#' :: ' ' ::
          (d :: ds ++ '.' :: ' ' :: (c :: t2 ++ '\n' :: (body ++ rest))) := by
    simp [entryText]
  rw [hform]
  exact matchAt_shape d c ds t2 body rest hdig htl

/-! ## Scanning a whole generated section -/

theorem matchAt_nl (w : List Char) : matchAt ('\n' :: w) = none := rfl

theorem nhla_sectionText (f : Entry) (es : List Entry) (hnum : f.number ≠ [])
    (hdig : f.number.all Char.isDigit = true) :
    nextHeadingLA ('\n' :: sectionText (f :: es)) = true := by
  obtain ⟨num, title, body⟩ := f
  obtain ⟨d, ds, rfl⟩ : ∃ d ds, num = d :: ds := by
    rcases num with _ | ⟨d, ds⟩
    · exact absurd rfl hnum
    · exact ⟨d, ds, rfl⟩
  have hd : d.isDigit = true := by
    have := List.all_eq_true.mp hdig d (by simp)
    simpa using this
  cases es with
  | nil =>
    show nextHeadingLA ('\n' :: entryText ⟨d :: ds, title, body⟩) = true
    simp only [entryText, List.cons_append]
    rw [nhla_cons]
    exact hd
  | cons g tl =>
    show nextHeadingLA ('\n' ::
        (entryText ⟨d :: ds, title, body⟩ ++ '\n' :: sectionText (g :: tl))) = true
    simp only [entryText, List.cons_append]
    rw [nhla_cons]
    exact hd

theorem scan_sectionText (es : List Entry) (h : ∀ e ∈ es, entryGood e) :
    scan (sectionText es) = es := by
  induction es with
  | nil => exact scan_nil
  | cons e tl ih =>
    cases tl with
    | nil =>
      show scan (entryText e) = [e]
      have hm : matchAt (entryText e ++ []) = some (e, []) :=
        matchAt_entry e [] (h e (by simp)) (Or.inl rfl)
      rw [List.append_nil] at hm
      rw [scan_of_matchAt _ e [] hm, scan_nil]
    | cons f tl2 =>
      have hgf := h f (by simp)
      have hnh : nextHeadingLA ('\n' :: sectionText (f :: tl2)) = true :=
        nhla_sectionText f tl2 hgf.1 hgf.2.1
      have hm : matchAt (entryText e ++ '\n' :: sectionText (f :: tl2))
          = some (e, '\n' :: sectionText (f :: tl2)) :=
        matchAt_entry e _ (h e (by simp)) (Or.inr ⟨_, rfl, hnh⟩)
      show scan (entryText e ++ '\n' :: sectionText (f :: tl2)) = e :: f :: tl2
      rw [scan_of_matchAt _ e _ hm]
      rw [scan_of_none '\n' _ (matchAt_nl _)]
      rw [ih (fun x hx => h x (List.mem_cons_of_mem e hx))]

/-! ## Correctness of the marker search -/

theorem strFind_some (hay : List Char) : ∀ needle i, strFind hay needle = some i →
    needle.isPrefixOf (hay.drop i) = true ∧
      ∀ j, j < i → needle.isPrefixOf (hay.drop j) = false := by
  induction hay with
  | nil =>
    intro needle i h
    unfold strFind at h
    split at h
    · rename_i hp
      obtain rfl : (0 : Nat) = i := Option.some.injEq .. ▸ h
      exact ⟨hp, fun j hj => absurd hj (Nat.not_lt_zero j)⟩
    · simp at h
  | cons c t ih =>
    intro needle i h
    unfold strFind at h
    split at h
    · rename_i hp
      obtain rfl : (0 : Nat) = i := Option.some.injEq .. ▸ h
      exact ⟨hp, fun j hj => absurd hj (Nat.not_lt_zero j)⟩
    · rename_i hp
      cases hfind : strFind t needle with
      | none =>
        rw [hfind] at h
        simp at h
      | some i2 =>
        rw [hfind] at h
        simp only [Option.map_some'] at h
        obtain rfl : i2 + 1 = i := Option.some.inj h
        obtain ⟨hpre, hmin⟩ := ih needle i2 hfind
        refine ⟨hpre, ?_⟩
        intro j hj
        cases j with
        | zero =>
          simp only [List.drop_zero]
          cases hb : needle.isPrefixOf (c :: t)
          · rfl
          · exact absurd hb hp
        | succ j2 =>
          have := hmin j2 (by omega)
          simpa using this

theorem strFind_none (hay : List Char) : ∀ needle, strFind hay needle = none →
    ∀ i, needle.isPrefixOf (hay.drop i) = false := by
  induction hay with
  | nil =>
    intro needle h i
    unfold strFind at h
    split at h
    · simp at h
    · rename_i hp
      simp only [List.drop_nil]
      cases hb : needle.isPrefixOf ([] : List Char)
      · rfl
      · exact absurd hb hp
  | cons c t ih =>
    intro needle h i
    unfold strFind at h
    split at h
    · simp at h
    · rename_i hp
      cases hfind : strFind t needle with
      | some j =>
        rw [hfind] at h
        simp at h
      | none =>
        cases i with
        | zero =>
          simp only [List.drop_zero]
          cases hb : needle.isPrefixOf (c :: t)
          · rfl
          · exact absurd hb hp
        | succ i2 =>
          have := ih needle hfind i2
          simpa using this

theorem no_occurs_of_strFind_none (content : List Char)
    (h : strFind content marker = none) : ∀ i, ¬ occursAt content i := by
  intro i hcon
  have := strFind_none content marker h i
  rw [hcon] at this
  simp at this

/-! ## Sections without any recognized heading -/

theorem headingAt_of_matchAt (s : List Char) (e : Entry) (rest : List Char)
    (h : matchAt s = some (e, rest)) : headingAt s = true := by
  unfold matchAt at h
  split at h
  · rename_i r
    split at h
    · simp at h
    · rename_i d ds c r2 heq
      simp only [headingAt, heq]
    · simp at h
  · simp at h

theorem headingFree_tail (c : Char) (r : List Char)
    (h : headingFree (c :: r) = true) : headingFree r = true := by
  unfold headingFree at h ⊢
  rw [List.all_eq_true] at h ⊢
  intro i hi
  rw [List.mem_range] at hi
  have hmem : i + 1 ∈ List.range ((c :: r).length + 1) := by
    rw [List.mem_range]
    simp only [List.length_cons]
    omega
  have := h (i + 1) hmem
  simpa using this

theorem headingFree_head (c : Char) (r : List Char)
    (h : headingFree (c :: r) = true) : headingAt (c :: r) = false := by
  unfold headingFree at h
  rw [List.all_eq_true] at h
  have hmem : 0 ∈ List.range ((c :: r).length + 1) := by
    rw [List.mem_range]
    omega
  have := h 0 hmem
  simpa using this

theorem scan_headingFree (s : List Char) (h : headingFree s = true) : scan s = [] := by
  induction s with
  | nil => exact scan_nil
  | cons c r ih =>
    cases hm : matchAt (c :: r) with
    | some pr =>
      obtain ⟨e, rest⟩ := pr
      have := headingAt_of_matchAt (c :: r) e rest hm
      rw [headingFree_head c r h] at this
      simp at this
    | none =>
      rw [scan_of_none c r hm]
      exact ih (headingFree_tail c r h)

/-! ## The submission loop -/

theorem submitLoop_submits (es : List Entry) :
    ∀ (net : Nat → Except (List Char) Nat) k,
    submitsOf (submitLoop net k es) = es.map payloadOf := by
  induction es with
  | nil => intro net k; rfl
  | cons e tl ih =>
    intro net k
    show submitsOf ((create_issue (net k) (fullTitle e) (cleanBody e)).1
        ++ submitLoop net (k + 1) tl) = payloadOf e :: tl.map payloadOf
    unfold submitsOf at ih ⊢
    rw [List.filterMap_append]
    rw [ih net (k + 1)]
    cases net k with
    | ok n => rfl
    | error err => rfl

theorem submitLoop_failed (es : List Entry) :
    ∀ (net : Nat → Except (List Char) Nat) k j e err,
    es[j]? = some e → net (k + j) = Except.error err →
    Event.printFailed (fullTitle e) err ∈ submitLoop net k es := by
  induction es with
  | nil => intro net k j e err hj; simp at hj
  | cons f tl ih =>
    intro net k j e err hj hn
    show Event.printFailed (fullTitle e) err ∈
      (create_issue (net k) (fullTitle f) (cleanBody f)).1 ++ submitLoop net (k + 1) tl
    cases j with
    | zero =>
      obtain rfl : f = e := by simpa using hj
      rw [Nat.add_zero] at hn
      rw [hn]
      simp [create_issue]
    | succ j2 =>
      have hj2 : tl[j2]? = some e := by simpa using hj
      have hn2 : net ((k + 1) + j2) = Except.error err := by
        rw [show (k + 1) + j2 = k + (j2 + 1) by omega]
        exact hn
      exact List.mem_append_right _ (ih net (k + 1) j2 e err hj2 hn2)

theorem submitLoop_events (es : List Entry) :
    ∀ (net : Nat → Except (List Char) Nat) k,
    ∀ ev ∈ submitLoop net k es, submissionEvent ev := by
  induction es with
  | nil => intro net k ev hev; simp [submitLoop] at hev
  | cons f tl ih =>
    intro net k ev hev
    show submissionEvent ev
    have : ev ∈ (create_issue (net k) (fullTitle f) (cleanBody f)).1
        ∨ ev ∈ submitLoop net (k + 1) tl := by
      rw [← List.mem_append]
      exact hev
    rcases this with hin | hin
    · cases hnk : net k with
      | ok n =>
        rw [hnk] at hin
        simp only [create_issue, List.mem_cons, List.not_mem_nil, or_false] at hin
        rcases hin with rfl | rfl
        · exact trivial
        · exact trivial
      | error err =>
        rw [hnk] at hin
        simp only [create_issue, List.mem_cons, List.not_mem_nil, or_false] at hin
        rcases hin with rfl | rfl
        · exact trivial
        · exact trivial
    · exact ih net (k + 1) ev hin

/-! ## Concrete material for witnesses -/

/-- The two entries of the end-to-end example of the specification. -/
def demoEntries : List Entry :=
  [⟨chars "1", chars "First Task", chars "Do the first thing."⟩,
   ⟨chars "2", chars "Second Task", chars "Do the second thing."⟩]

/-- One concrete entry of the example. -/
def demoEntry1 : Entry :=
  ⟨chars "1", chars "First Task", chars "Do the first thing."⟩

/-- A concrete document: a preamble, then the marker, then two entries. -/
def demoContent : List Char :=
  chars "pre ### Phase 9\n#### 1. First Task\nDo the first thing.\n#### 2. Second Task\nDo the second thing."

/-- The section of the concrete document, from the marker to the end. -/
def demoSec : List Char :=
  chars "### Phase 9\n#### 1. First Task\nDo the first thing.\n#### 2. Second Task\nDo the second thing."

/-- A section that contains the marker but no recognized heading. -/
def demoNoItems : List Char :=
  chars "### Phase 9\nno items follow here"

/-- A network oracle on which every call succeeds. -/
def netOk : Nat → Except (List Char) Nat :=
  fun _ => Except.ok 1

/-- A network oracle on which the first call fails and the rest succeed. -/
def netFail0 : Nat → Except (List Char) Nat :=
  fun k => if k = 0 then Except.error (chars "boom") else Except.ok 7

/-- A section exhibiting the permissive body terminator: a line of four
hash signs, a space and digits, but no dot after the digits. -/
def permSec : List Char :=
  chars "#### 1. T\nalpha\n#### 12\nmore\n#### 2. U\nsecond"

/-! ## The claims -/

/-- C1: for every section text consisting of N consecutive recognized
headings with wellformed numbers, titles and bodies, parsing the section
produces exactly those N entries, in document order, and each body is the
text strictly between its heading line and the next recognized heading
line or end of input; the capture excludes the line break that
immediately precedes the next heading line, which is exactly the
behaviour of the zero-width terminator of the pattern. -/
theorem c1_parse_consecutive (es : List Entry) (h : ∀ e ∈ es, entryGood e) :
    scan (sectionText es) = es :=
  scan_sectionText es h

theorem c1_parse_consecutive_witness :
    (∀ e ∈ demoEntries, entryGood e) ∧ scan (sectionText demoEntries) = demoEntries :=
  ⟨by decide, c1_parse_consecutive demoEntries (by decide)⟩

/-- C2 counterexample: a section whose only heading line reads 7 dot
space Title, without the four-hash-and-space lead-in, yields no entry at
all, refuting the claim that it parses to one entry. -/
theorem c2_heading_counterexample :
    scan (chars "7. Title\nSome body.") = [] ∧
    scan (chars "7. Title\nSome body.") ≠
      [⟨chars "7", chars "Title", chars "Some body."⟩] := by
  decide

/-- C2 amended: a heading is recognized only when the line carries the
literal lead-in of four hash signs and a space before the digits, the dot
and the space; a section whose only heading line is the four-hash form of
7 dot space Title followed by the body Some body. parses to exactly one
entry with number 7, title Title and body Some body. -/
theorem c2_heading_amended :
    scan (chars "#### 7. Title\nSome body.") =
      [⟨chars "7", chars "Title", chars "Some body."⟩] := by
  decide

/-- C3: if i is the first index at which the marker occurs, extraction
returns precisely the suffix of the document starting at i; if the marker
occurs nowhere, extraction signals nothing found. -/
theorem c3_extract_first (content : List Char) (i : Nat) :
    (occursAt content i ∧ (∀ j, j < i → ¬ occursAt content j) →
      extract content = some (content.drop i)) ∧
    ((∀ j, ¬ occursAt content j) → extract content = none) := by
  constructor
  · rintro ⟨hi, hmin⟩
    cases hsf : strFind content marker with
    | none =>
      exact absurd hi (no_occurs_of_strFind_none content hsf i)
    | some j =>
      obtain ⟨hpre, hjmin⟩ := strFind_some content marker j hsf
      have hij : i = j := by
        rcases Nat.lt_trichotomy i j with hlt | heq | hgt
        · have := hjmin i hlt
          have hi2 : marker.isPrefixOf (content.drop i) = true := hi
          rw [hi2] at this
          simp at this
        · exact heq
        · exact absurd hpre (hmin j hgt)
      subst hij
      simp only [extract, hsf]
  · intro habs
    cases hsf : strFind content marker with
    | some j =>
      have := (strFind_some content marker j hsf).1
      exact absurd this (habs j)
    | none =>
      simp only [extract, hsf]

theorem c3_extract_first_witness :
    extract demoContent = some (demoContent.drop 4) ∧
      extract (chars "a document without the section") = none :=
  ⟨(c3_extract_first demoContent 4).1 ⟨by decide, by decide⟩,
   (c3_extract_first (chars "a document without the section") 0).2
     (no_occurs_of_strFind_none _ (by decide))⟩

/-- C4: over any batch, every entry receives exactly one submission
attempt, in document order, whatever the outcomes of the other calls are;
and a failing call is reported with the composed title of its entry and
the reason, without stopping the loop. -/
theorem c4_isolation (content : List Char) (net : Nat → Except (List Char) Nat)
    (sec : List Char) (hsec : extract content = some sec) :
    submitsOf (runMain content net) = (scan sec).map payloadOf ∧
    (∀ k e err, (scan sec)[k]? = some e → net k = Except.error err →
      Event.printFailed (fullTitle e) err ∈ runMain content net) := by
  have hrm : runMain content net
      = Event.printCount (scan sec).length :: submitLoop net 0 (scan sec) := by
    simp only [runMain, hsec]
  constructor
  · rw [hrm]
    show submitsOf (Event.printCount (scan sec).length :: submitLoop net 0 (scan sec))
      = (scan sec).map payloadOf
    have hcons : submitsOf (Event.printCount (scan sec).length :: submitLoop net 0 (scan sec))
        = submitsOf (submitLoop net 0 (scan sec)) := rfl
    rw [hcons]
    exact submitLoop_submits (scan sec) net 0
  · intro k e err hk hn
    rw [hrm]
    refine List.mem_cons_of_mem _ ?_
    refine submitLoop_failed (scan sec) net 0 k e err hk ?_
    rw [Nat.zero_add]
    exact hn

theorem c4_isolation_witness :
    submitsOf (runMain demoContent netFail0) = (scan demoSec).map payloadOf ∧
      Event.printFailed (fullTitle demoEntry1) (chars "boom")
        ∈ runMain demoContent netFail0 := by
  have h := c4_isolation demoContent netFail0 demoSec (by decide)
  exact ⟨h.1, h.2 0 demoEntry1 (chars "boom") (by decide) rfl⟩

/-- C5: for every entry, the submitted payload has as title the number
followed by a dot, a space and the stripped title, as body the stripped
body, and as labels the one-element list holding the fixed classification
label. -/
theorem c5_payload_fields (net : Nat → Except (List Char) Nat) (k : Nat) (es : List Entry) :
    submitsOf (submitLoop net k es) =
      es.map (fun e => Payload.mk (e.number ++ '.' :: ' ' :: stripChars e.title)
        (stripChars e.body) [newForWave]) := by
  rw [submitLoop_submits es net k]
  rfl

/-- C6: when the marker occurs nowhere in the document, the run prints
the diagnostic and stops: no count line, no parsing output, no submission
event of any kind appears in the trace. -/
theorem c6_marker_absent (content : List Char) (net : Nat → Except (List Char) Nat)
    (h : ∀ i, ¬ occursAt content i) :
    runMain content net = [Event.printNotFound] := by
  cases hsf : strFind content marker with
  | some j =>
    have := (strFind_some content marker j hsf).1
    exact absurd this (h j)
  | none =>
    simp only [runMain, extract, hsf]

theorem c6_marker_absent_witness :
    runMain (chars "a plain document") netOk = [Event.printNotFound] :=
  c6_marker_absent _ netOk (no_occurs_of_strFind_none _ (by decide))

/-- C7: a section in which no position starts a recognized heading parses
to the empty list rather than an error, and the run then prints a count
of zero and performs no submission call. -/
theorem c7_zero_headings (content sec : List Char) (net : Nat → Except (List Char) Nat)
    (hsec : extract content = some sec) (h : headingFree sec = true) :
    scan sec = [] ∧ runMain content net = [Event.printCount 0] ∧
      ∀ p, Event.submit p ∉ runMain content net := by
  have hs : scan sec = [] := scan_headingFree sec h
  refine ⟨hs, ?_, ?_⟩
  · simp only [runMain, hsec, hs]
    rfl
  · intro p
    simp only [runMain, hsec, hs]
    simp [submitLoop]

theorem c7_zero_headings_witness :
    scan demoNoItems = [] ∧ runMain demoNoItems netOk = [Event.printCount 0] := by
  have h := c7_zero_headings demoNoItems demoNoItems netOk (by decide) (by decide)
  exact ⟨h.1, h.2.1⟩

/-- C8: parsing is a pure function of the section text: equal inputs give
equal entry sequences. -/
theorem c8_scan_deterministic (s t : List Char) (h : s = t) : scan s = scan t := by
  rw [h]

theorem c8_scan_deterministic_witness : scan demoSec = scan demoSec :=
  c8_scan_deterministic demoSec demoSec rfl

/-- C9: whenever the run reaches the parsing stage, the trace starts with
the discovered-count line, and everything after it belongs to the
submission phase, so the count precedes every per-entry outcome line. -/
theorem c9_count_before_submissions (content sec : List Char)
    (net : Nat → Except (List Char) Nat) (hsec : extract content = some sec) :
    runMain content net
      = Event.printCount (scan sec).length :: submitLoop net 0 (scan sec) ∧
    ∀ ev ∈ submitLoop net 0 (scan sec), submissionEvent ev := by
  refine ⟨?_, submitLoop_events (scan sec) net 0⟩
  simp only [runMain, hsec]

theorem c9_count_before_submissions_witness :
    runMain demoContent netOk
      = Event.printCount (scan demoSec).length :: submitLoop netOk 0 (scan demoSec) :=
  (c9_count_before_submissions demoContent demoSec netOk (by decide)).1

/-- C10: the body terminator is more permissive than heading recognition:
in permSec the line of four hash signs, a space and the digits 12 ends the
body of the first entry, is itself no heading, and its text appears in no
produced entry, while the later proper heading is still recognized. -/
theorem c10_terminator_permissive :
    scan permSec = [⟨chars "1", chars "T", chars "alpha"⟩,
      ⟨chars "2", chars "U", chars "second"⟩] ∧
    nextHeadingLA (chars "\n#### 12") = true ∧
    headingAt (chars "#### 12") = false := by
  decide
